import Mathlib

/-!
Verification of the request-coordination core of the `imaged` image service.

Shallow embedding of the relevant source files:
  * `src/cache/memory.rs` — bounded in-memory LRU cache (`MemoryCache`);
  * `src/cache/disk.rs`   — on-disk cache file format and file creation;
  * `src/signature.rs`    — signed-URL verifier;
  * `src/singleflight.rs` — single-flight request deduplication;
  * `src/handler.rs`      — the request pipeline (permit acquisition order).

Machine integers of the source (`usize`, `u32`, `u64`) are modelled as `Nat`
with explicit bounds where overflow or truncation matters; fallible Rust code
(`Result`, `Option`) is modelled with `Except` and `Option`.
-/

set_option maxHeartbeats 1000000
set_option maxRecDepth 16384

/-! ## Data model (src/image.rs)

`ImageType` and `InputImageType` are the five-variant enums of image.rs
(lines 16-70); serde serializes both with `rename_all = "lowercase"`.
`ProcessOptions` (image.rs lines 131-142) and `ImageOutput`
(image.rs lines 145-155, the `buf` field carries `#[serde(skip)]`).
Byte buffers are `List Nat` (each element one byte). -/

inductive ImageType
| avif
| jpeg
| png
| tiff
| webp
deriving DecidableEq, Repr

inductive InputImageType
| avif
| jpeg
| png
| tiff
| webp
deriving DecidableEq, Repr

structure ProcessOptions where
  width : Option Nat
  height : Option Nat
  out_type : Option ImageType
  quality : Option Nat
  blur : Option Nat
deriving DecidableEq, Repr

structure ImageOutput where
  buf : List Nat
  img_type : ImageType
  width : Nat
  height : Nat
  orig_size : Nat
  orig_type : InputImageType
  orig_width : Nat
  orig_height : Nat
deriving DecidableEq, Repr

/-! ## MemoryCache (src/cache/memory.rs)

The `lru::LruCache` is modelled as an association list in recency order with
the least-recently-used entry at the FRONT and the most-recently-used entry at
the back:
  * `LruCache::get` returns the value and moves the entry to the back;
  * `LruCache::put` inserts at the back, returning a previous value under the
    same key if any;
  * `LruCache::pop_lru` removes the front entry.
`MemoryCache` holds the list together with the `max` and `size` fields of
`Inner` (memory.rs lines 62-66).  The key is (input, options)
(memory.rs lines 68-72). -/

structure MemKey where
  input : String
  options : ProcessOptions
deriving DecidableEq, Repr

abbrev LruList := List (MemKey × ImageOutput)

structure MemoryCache where
  lru : LruList
  max : Nat
  size : Nat
deriving DecidableEq, Repr

def MemoryCache.new (maxBytes : Nat) : MemoryCache :=
  { lru := [], max := maxBytes, size := 0 }

def lruFind (k : MemKey) (l : LruList) : Option ImageOutput :=
  (l.find? (fun p => decide (p.1 = k))).map Prod.snd

def lruErase (k : MemKey) (l : LruList) : LruList :=
  l.eraseP (fun p => decide (p.1 = k))

/-- `MemoryCache::get` (memory.rs lines 26-34): returns a clone of the cached
value and promotes the entry to most-recently-used. -/
def MemoryCache.get (c : MemoryCache) (input : String) (options : ProcessOptions) :
    Option ImageOutput × MemoryCache :=
  let k : MemKey := ⟨input, options⟩
  match lruFind k c.lru with
  | some v => (some v, { c with lru := lruErase k c.lru ++ [(k, v)] })
  | none => (none, c)

/-- The `while size > max { pop_lru }` loop of `MemoryCache::set`
(memory.rs lines 46-58).  The `None => return` arm of the source is the
`[]` case; `checked_sub` cannot underflow because `size` is the sum of the
stored buffer lengths (proved below). -/
def evictLoop (max : Nat) : LruList → Nat → LruList × Nat
  | [], size => ([], size)
  | (k, v) :: rest, size =>
    if size ≤ max then ((k, v) :: rest, size)
    else evictLoop max rest (size - v.buf.length)

/-- `MemoryCache::set` (memory.rs lines 36-59). -/
def MemoryCache.set (c : MemoryCache) (input : String) (options : ProcessOptions)
    (output : ImageOutput) : MemoryCache :=
  let k : MemKey := ⟨input, options⟩
  let size1 := c.size + output.buf.length
  let size2 :=
    match lruFind k c.lru with
    | some old => size1 - old.buf.length
    | none => size1
  let lru1 := lruErase k c.lru ++ [(k, output)]
  let res := evictLoop c.max lru1 size2
  { c with lru := res.1, size := res.2 }

/-- One `set`/`get` call against the memory cache. -/
inductive MemOp
| get (input : String) (options : ProcessOptions)
| set (input : String) (options : ProcessOptions) (output : ImageOutput)

def applyMemOp (c : MemoryCache) : MemOp → MemoryCache
  | .get i o => (c.get i o).2
  | .set i o v => c.set i o v

def runMemOps (c : MemoryCache) (ops : List MemOp) : MemoryCache :=
  ops.foldl applyMemOp c

/-- Sum of the byte lengths of the stored entries. -/
def sumSize (l : LruList) : Nat :=
  (l.map (fun p => p.2.buf.length)).sum

theorem sumSize_cons (p : MemKey × ImageOutput) (l : LruList) :
    sumSize (p :: l) = p.2.buf.length + sumSize l := by
  simp [sumSize]

theorem sumSize_append (l1 l2 : LruList) :
    sumSize (l1 ++ l2) = sumSize l1 + sumSize l2 := by
  simp [sumSize]
theorem sumSize_nil : sumSize [] = 0 := rfl

theorem sumSize_pair_cons (k : MemKey) (v : ImageOutput) (l : LruList) :
    sumSize ((k, v) :: l) = v.buf.length + sumSize l := by
  simp [sumSize]

theorem lruFind_cons_eq (k : MemKey) (p : MemKey × ImageOutput) (l : LruList)
    (h : p.1 = k) : lruFind k (p :: l) = some p.2 := by
  simp [lruFind, List.find?_cons, h]

theorem lruFind_cons_ne (k : MemKey) (p : MemKey × ImageOutput) (l : LruList)
    (h : ¬p.1 = k) : lruFind k (p :: l) = lruFind k l := by
  simp [lruFind, List.find?_cons, h]

theorem lruErase_cons_eq (k : MemKey) (p : MemKey × ImageOutput) (l : LruList)
    (h : p.1 = k) : lruErase k (p :: l) = l := by
  simp [lruErase, List.eraseP_cons, h]

theorem lruErase_cons_ne (k : MemKey) (p : MemKey × ImageOutput) (l : LruList)
    (h : ¬p.1 = k) : lruErase k (p :: l) = p :: lruErase k l := by
  simp [lruErase, List.eraseP_cons, h]

theorem erase_sum_of_find (k : MemKey) (l : LruList) (v : ImageOutput)
    (h : lruFind k l = some v) :
    sumSize l = sumSize (lruErase k l) + v.buf.length := by
  induction l with
  | nil => simp [lruFind] at h
  | cons p rest ih =>
    by_cases hp : p.1 = k
    · rw [lruFind_cons_eq k p rest hp] at h
      obtain rfl : p.2 = v := by injection h
      rw [lruErase_cons_eq k p rest hp, sumSize_cons]
      omega
    · rw [lruFind_cons_ne k p rest hp] at h
      rw [lruErase_cons_ne k p rest hp, sumSize_cons, sumSize_cons, ih h]
      omega

theorem erase_of_find_none (k : MemKey) (l : LruList)
    (h : lruFind k l = none) :
    lruErase k l = l := by
  induction l with
  | nil => simp [lruErase]
  | cons p rest ih =>
    by_cases hp : p.1 = k
    · rw [lruFind_cons_eq k p rest hp] at h
      exact absurd h (by simp)
    · rw [lruFind_cons_ne k p rest hp] at h
      rw [lruErase_cons_ne k p rest hp, ih h]

theorem evictLoop_sum (max : Nat) (l : LruList) (size : Nat) (h : size = sumSize l) :
    (evictLoop max l size).2 = sumSize (evictLoop max l size).1 ∧
      (evictLoop max l size).2 ≤ max := by
  induction l generalizing size with
  | nil =>
    subst h
    simp [evictLoop, sumSize]
  | cons p rest ih =>
    obtain ⟨k, v⟩ := p
    rw [sumSize_pair_cons] at h
    by_cases hle : size ≤ max
    · rw [show evictLoop max ((k, v) :: rest) size = ((k, v) :: rest, size) from by
        simp [evictLoop, hle]]
      exact ⟨by rw [sumSize_pair_cons]; omega, hle⟩
    · rw [show evictLoop max ((k, v) :: rest) size
          = evictLoop max rest (size - v.buf.length) from by simp [evictLoop, hle]]
      exact ih (size - v.buf.length) (by omega)

theorem MemoryCache.get_max (c : MemoryCache) (i : String) (o : ProcessOptions) :
    (c.get i o).2.max = c.max := by
  cases hf : lruFind ⟨i, o⟩ c.lru <;> simp [MemoryCache.get, hf]

theorem MemoryCache.set_max (c : MemoryCache) (i : String) (o : ProcessOptions)
    (x : ImageOutput) : (c.set i o x).max = c.max := by
  cases hf : lruFind ⟨i, o⟩ c.lru <;> simp [MemoryCache.set, hf]

theorem memInv_get (c : MemoryCache) (i : String) (o : ProcessOptions)
    (h1 : c.size = sumSize c.lru) (h2 : c.size ≤ c.max) :
    (c.get i o).2.size = sumSize (c.get i o).2.lru ∧
      (c.get i o).2.size ≤ (c.get i o).2.max := by
  rw [MemoryCache.get_max]
  cases hf : lruFind ⟨i, o⟩ c.lru with
  | none => simp only [MemoryCache.get, hf]; exact ⟨h1, h2⟩
  | some v =>
    have hsum := erase_sum_of_find ⟨i, o⟩ c.lru v hf
    simp only [MemoryCache.get, hf]
    refine ⟨?_, h2⟩
    rw [sumSize_append, sumSize_pair_cons, sumSize_nil]
    omega

theorem memInv_set (c : MemoryCache) (i : String) (o : ProcessOptions)
    (x : ImageOutput) (h1 : c.size = sumSize c.lru) :
    (c.set i o x).size = sumSize (c.set i o x).lru ∧
      (c.set i o x).size ≤ (c.set i o x).max := by
  rw [MemoryCache.set_max]
  cases hf : lruFind ⟨i, o⟩ c.lru with
  | none =>
    have herase := erase_of_find_none ⟨i, o⟩ c.lru hf
    have hsum : c.size + x.buf.length =
        sumSize (lruErase ⟨i, o⟩ c.lru ++ [(⟨i, o⟩, x)]) := by
      rw [sumSize_append, sumSize_pair_cons, sumSize_nil, herase]
      omega
    have hev := evictLoop_sum c.max (lruErase ⟨i, o⟩ c.lru ++ [(⟨i, o⟩, x)])
      (c.size + x.buf.length) hsum
    simp only [MemoryCache.set, hf]
    exact hev
  | some old =>
    have herase := erase_sum_of_find ⟨i, o⟩ c.lru old hf
    have hsum : c.size + x.buf.length - old.buf.length =
        sumSize (lruErase ⟨i, o⟩ c.lru ++ [(⟨i, o⟩, x)]) := by
      rw [sumSize_append, sumSize_pair_cons, sumSize_nil]
      omega
    have hev := evictLoop_sum c.max (lruErase ⟨i, o⟩ c.lru ++ [(⟨i, o⟩, x)])
      (c.size + x.buf.length - old.buf.length) hsum
    simp only [MemoryCache.set, hf]
    exact hev

/-- C3 (amended): after every sequence of `set`/`get` operations the tracked
size equals the sum of the stored buffer lengths AND is at most `max_bytes`:
the eviction loop of `set` can pop every entry including the newly inserted
oversized one, so no oversized entry is ever retained. -/
theorem mem_cache_size_invariant (maxBytes : Nat) (ops : List MemOp) :
    (runMemOps (MemoryCache.new maxBytes) ops).size =
        sumSize (runMemOps (MemoryCache.new maxBytes) ops).lru ∧
      (runMemOps (MemoryCache.new maxBytes) ops).size ≤
        (runMemOps (MemoryCache.new maxBytes) ops).max := by
  suffices h : ∀ (c : MemoryCache), c.size = sumSize c.lru → c.size ≤ c.max →
      (runMemOps c ops).size = sumSize (runMemOps c ops).lru ∧
        (runMemOps c ops).size ≤ (runMemOps c ops).max by
    exact h (MemoryCache.new maxBytes) (by simp [MemoryCache.new, sumSize])
      (by simp [MemoryCache.new])
  induction ops with
  | nil => intro c h1 h2; exact ⟨h1, h2⟩
  | cons op rest ih =>
    intro c h1 h2
    cases op with
    | get i o =>
      have hstep := memInv_get c i o h1 h2
      exact ih _ hstep.1 hstep.2
    | set i o x =>
      have hstep := memInv_set c i o x h1
      exact ih _ hstep.1 hstep.2

def procOpts0 : ProcessOptions :=
  { width := none, height := none, out_type := none, quality := none, blur := none }

def oversizedOutput : ImageOutput :=
  { buf := List.replicate 11 0, img_type := .jpeg, width := 1, height := 1,
    orig_size := 11, orig_type := .jpeg, orig_width := 1, orig_height := 1 }

/-- C3 counterexample: with `max_bytes = 10`, `set` of an 11-byte entry into an
empty cache leaves the cache EMPTY — the eviction loop pops the newly inserted
oversized item itself (it is the LRU tail at that point), so the oversized item
is NOT retained, contradicting the claim. -/
theorem mem_cache_oversized_not_retained :
    ((MemoryCache.new 10).set "a" procOpts0 oversizedOutput).lru = [] ∧
      (((MemoryCache.new 10).set "a" procOpts0 oversizedOutput).get "a" procOpts0).1
        = none := by
  constructor
  · rfl
  · rfl

/-! ### C6: get-after-set and last-write-wins for the memory cache -/

def lruKeys (l : LruList) : List MemKey := l.map Prod.fst

theorem lruKeys_cons (p : MemKey × ImageOutput) (l : LruList) :
    lruKeys (p :: l) = p.1 :: lruKeys l := rfl

theorem lruKeys_append (l1 l2 : LruList) :
    lruKeys (l1 ++ l2) = lruKeys l1 ++ lruKeys l2 := by
  simp [lruKeys]

theorem nodup_keys_erase (k : MemKey) (l : LruList)
    (h : (lruKeys l).Nodup) : (lruKeys (lruErase k l)).Nodup :=
  h.sublist ((List.eraseP_sublist _).map Prod.fst)

theorem not_mem_keys_erase (k : MemKey) (l : LruList)
    (h : (lruKeys l).Nodup) : k ∉ lruKeys (lruErase k l) := by
  induction l with
  | nil => simp [lruErase, lruKeys]
  | cons p rest ih =>
    rw [lruKeys_cons] at h
    obtain ⟨hp1, hp2⟩ := List.nodup_cons.mp h
    by_cases hp : p.1 = k
    · rw [lruErase_cons_eq k p rest hp]
      rw [← hp]
      exact hp1
    · rw [lruErase_cons_ne k p rest hp, lruKeys_cons]
      intro hmem
      rcases List.mem_cons.mp hmem with he | hm
      · exact hp he.symm
      · exact ih hp2 hm

theorem lruFind_none_of_not_mem (k : MemKey) (l : LruList)
    (h : k ∉ lruKeys l) : lruFind k l = none := by
  induction l with
  | nil => rfl
  | cons p rest ih =>
    rw [lruKeys_cons] at h
    have h1 : ¬k = p.1 := fun hh => h (List.mem_cons.mpr (Or.inl hh))
    have h2 : k ∉ lruKeys rest := fun hh => h (List.mem_cons.mpr (Or.inr hh))
    rw [lruFind_cons_ne k p rest (fun hh => h1 hh.symm)]
    exact ih h2

theorem lruFind_isSome_of_mem (k : MemKey) (l : LruList)
    (h : k ∈ lruKeys l) : (lruFind k l).isSome := by
  induction l with
  | nil => simp [lruKeys] at h
  | cons p rest ih =>
    by_cases hp : p.1 = k
    · rw [lruFind_cons_eq k p rest hp]; rfl
    · rw [lruFind_cons_ne k p rest hp]
      rw [lruKeys_cons] at h
      rcases List.mem_cons.mp h with he | hm
      · exact absurd he.symm hp
      · exact ih hm

theorem lruFind_append_last_ne (fp k : MemKey) (v : ImageOutput) (l : LruList)
    (h : ¬k = fp) : lruFind fp (l ++ [(k, v)]) = lruFind fp l := by
  induction l with
  | nil =>
    show lruFind fp [(k, v)] = lruFind fp []
    rw [lruFind_cons_ne fp (k, v) [] h]
  | cons p rest ih =>
    by_cases hp : p.1 = fp
    · rw [List.cons_append, lruFind_cons_eq fp p _ hp, lruFind_cons_eq fp p rest hp]
    · rw [List.cons_append, lruFind_cons_ne fp p _ hp, lruFind_cons_ne fp p rest hp, ih]

theorem lruFind_append_key (k : MemKey) (v : ImageOutput) (l : LruList)
    (h : k ∉ lruKeys l) : lruFind k (l ++ [(k, v)]) = some v := by
  induction l with
  | nil =>
    show lruFind k [(k, v)] = some v
    rw [lruFind_cons_eq k (k, v) [] rfl]
  | cons p rest ih =>
    rw [lruKeys_cons] at h
    have h1 : ¬p.1 = k := fun hh => h (List.mem_cons.mpr (Or.inl hh.symm))
    have h2 : k ∉ lruKeys rest := fun hh => h (List.mem_cons.mpr (Or.inr hh))
    rw [List.cons_append, lruFind_cons_ne k p _ h1]
    exact ih h2

theorem lruFind_erase_ne (fp k : MemKey) (l : LruList) (h : ¬fp = k) :
    lruFind fp (lruErase k l) = lruFind fp l := by
  induction l with
  | nil => rfl
  | cons p rest ih =>
    by_cases hpk : p.1 = k
    · rw [lruErase_cons_eq k p rest hpk]
      rw [lruFind_cons_ne fp p rest (fun hh => h (hh ▸ hpk))]
    · by_cases hpf : p.1 = fp
      · rw [lruErase_cons_ne k p rest hpk, lruFind_cons_eq fp p _ hpf,
          lruFind_cons_eq fp p rest hpf]
      · rw [lruErase_cons_ne k p rest hpk, lruFind_cons_ne fp p _ hpf,
          lruFind_cons_ne fp p rest hpf, ih]

theorem lruFind_suffix (k : MemKey) (pre l' : LruList)
    (h : (lruKeys (pre ++ l')).Nodup) :
    lruFind k l' = none ∨ lruFind k l' = lruFind k (pre ++ l') := by
  induction pre with
  | nil => right; rfl
  | cons p pre' ih =>
    rw [List.cons_append, lruKeys_cons] at h
    obtain ⟨hp1, hp2⟩ := List.nodup_cons.mp h
    by_cases hp : p.1 = k
    · left
      apply lruFind_none_of_not_mem
      intro hmem
      apply hp1
      rw [hp, lruKeys_append]
      exact List.mem_append.mpr (Or.inr hmem)
    · rcases ih hp2 with hnone | heq
      · left; exact hnone
      · right
        rw [heq, List.cons_append, lruFind_cons_ne k p _ hp]

theorem evictLoop_suffix (max : Nat) (l : LruList) (size : Nat) :
    (evictLoop max l size).1 <:+ l := by
  induction l generalizing size with
  | nil => simp [evictLoop]
  | cons p rest ih =>
    obtain ⟨k, v⟩ := p
    by_cases hle : size ≤ max
    · rw [show evictLoop max ((k, v) :: rest) size = ((k, v) :: rest, size) from by
        simp [evictLoop, hle]]
    · rw [show evictLoop max ((k, v) :: rest) size
          = evictLoop max rest (size - v.buf.length) from by simp [evictLoop, hle]]
      exact (ih _).trans (List.suffix_cons _ _)

theorem set_lru_eq (c : MemoryCache) (i : String) (o : ProcessOptions)
    (x : ImageOutput) :
    ∃ s, (c.set i o x).lru =
      (evictLoop c.max (lruErase ⟨i, o⟩ c.lru ++ [(⟨i, o⟩, x)]) s).1 := by
  cases hf : lruFind ⟨i, o⟩ c.lru with
  | none => exact ⟨c.size + x.buf.length, by simp [MemoryCache.set, hf]⟩
  | some old =>
    exact ⟨c.size + x.buf.length - old.buf.length, by simp [MemoryCache.set, hf]⟩

theorem nodup_keys_lru1 (c : MemoryCache) (k : MemKey) (x : ImageOutput)
    (h : (lruKeys c.lru).Nodup) :
    (lruKeys (lruErase k c.lru ++ [(k, x)])).Nodup := by
  rw [lruKeys_append]
  apply List.Nodup.append (nodup_keys_erase k c.lru h) (List.nodup_singleton _)
  intro a ha hb
  have hak : a = k := by simpa [lruKeys] using hb
  rw [hak] at ha
  exact not_mem_keys_erase k c.lru h ha

theorem nodup_keys_set (c : MemoryCache) (i : String) (o : ProcessOptions)
    (x : ImageOutput) (h : (lruKeys c.lru).Nodup) :
    (lruKeys (c.set i o x).lru).Nodup := by
  obtain ⟨s, hs⟩ := set_lru_eq c i o x
  rw [hs]
  exact (nodup_keys_lru1 c ⟨i, o⟩ x h).sublist
    ((evictLoop_suffix _ _ _).sublist.map Prod.fst)

theorem nodup_keys_get (c : MemoryCache) (i : String) (o : ProcessOptions)
    (h : (lruKeys c.lru).Nodup) :
    (lruKeys (c.get i o).2.lru).Nodup := by
  cases hf : lruFind ⟨i, o⟩ c.lru with
  | none => simpa [MemoryCache.get, hf] using h
  | some v =>
    simp only [MemoryCache.get, hf]
    exact nodup_keys_lru1 c ⟨i, o⟩ v h

theorem find_get_eq (c : MemoryCache) (i : String) (o : ProcessOptions)
    (fp : MemKey) (h : (lruKeys c.lru).Nodup) :
    lruFind fp (c.get i o).2.lru = lruFind fp c.lru := by
  cases hf : lruFind ⟨i, o⟩ c.lru with
  | none => simp [MemoryCache.get, hf]
  | some v =>
    simp only [MemoryCache.get, hf]
    by_cases hfp : fp = (⟨i, o⟩ : MemKey)
    · rw [hfp,
        lruFind_append_key ⟨i, o⟩ v _ (not_mem_keys_erase ⟨i, o⟩ c.lru h), hf]
    · rw [lruFind_append_last_ne fp ⟨i, o⟩ v _ (fun hh => hfp hh.symm),
        lruFind_erase_ne fp ⟨i, o⟩ c.lru hfp]

theorem find_set_lemma (c : MemoryCache) (i : String) (o : ProcessOptions)
    (x : ImageOutput) (fp : MemKey) (h : (lruKeys c.lru).Nodup) :
    lruFind fp (c.set i o x).lru = none ∨
      lruFind fp (c.set i o x).lru =
        (if fp = (⟨i, o⟩ : MemKey) then some x else lruFind fp c.lru) := by
  obtain ⟨s, hs⟩ := set_lru_eq c i o x
  rw [hs]
  obtain ⟨pre, hpre⟩ := evictLoop_suffix c.max (lruErase ⟨i, o⟩ c.lru ++ [(⟨i, o⟩, x)]) s
  have hnd1 := nodup_keys_lru1 c ⟨i, o⟩ x h
  rcases lruFind_suffix fp pre _ (by rw [hpre]; exact hnd1) with hnone | heq
  · left; exact hnone
  · right
    rw [heq, hpre]
    by_cases hfp : fp = (⟨i, o⟩ : MemKey)
    · rw [if_pos hfp, hfp]
      exact lruFind_append_key ⟨i, o⟩ x _ (not_mem_keys_erase ⟨i, o⟩ c.lru h)
    · rw [if_neg hfp]
      rw [lruFind_append_last_ne fp ⟨i, o⟩ x _ (fun hh => hfp hh.symm),
        lruFind_erase_ne fp ⟨i, o⟩ c.lru hfp]

theorem get_fst (c : MemoryCache) (i : String) (o : ProcessOptions) :
    (c.get i o).1 = lruFind ⟨i, o⟩ c.lru := by
  cases hf : lruFind ⟨i, o⟩ c.lru <;> simp [MemoryCache.get, hf]

theorem runOps_find_aux (k : MemKey) (x : ImageOutput) (ops : List MemOp) :
    ∀ (c : MemoryCache), (lruKeys c.lru).Nodup →
      (lruFind k c.lru = none ∨ lruFind k c.lru = some x) →
      (∀ i' o' x', MemOp.set i' o' x' ∈ ops → ¬((⟨i', o'⟩ : MemKey) = k)) →
      lruFind k (runMemOps c ops).lru = none ∨
        lruFind k (runMemOps c ops).lru = some x := by
  induction ops with
  | nil => intro c _ h2 _; exact h2
  | cons op rest ih =>
    intro c h1 h2 h3
    show lruFind k (runMemOps (applyMemOp c op) rest).lru = none ∨
      lruFind k (runMemOps (applyMemOp c op) rest).lru = some x
    cases op with
    | get i' o' =>
      apply ih
      · exact nodup_keys_get c i' o' h1
      · rw [show applyMemOp c (MemOp.get i' o') = (c.get i' o').2 from rfl,
          find_get_eq c i' o' k h1]
        exact h2
      · intro a b d hm; exact h3 a b d (List.mem_cons_of_mem _ hm)
    | set i' o' x' =>
      have hne : ¬((⟨i', o'⟩ : MemKey) = k) := h3 i' o' x' (List.mem_cons_self _ _)
      apply ih
      · exact nodup_keys_set c i' o' x' h1
      · rcases find_set_lemma c i' o' x' k h1 with hn | he
        · left; exact hn
        · rw [show applyMemOp c (MemOp.set i' o' x') = c.set i' o' x' from rfl, he,
            if_neg (fun hh => hne hh.symm)]
          exact h2
      · intro a b d hm; exact h3 a b d (List.mem_cons_of_mem _ hm)

/-- C6: immediately after `set(fp, x)`, if the entry for `fp` survived the
eviction loop then `get(fp)` returns `x`; and after any further operations
that never `set` the key `fp`, `get(fp)` returns either absent or still `x` —
never a different value. -/
theorem mem_cache_last_write_wins (c : MemoryCache) (i : String)
    (o : ProcessOptions) (x : ImageOutput) (ops : List MemOp)
    (hnd : (lruKeys c.lru).Nodup)
    (hops : ∀ i' o' x', MemOp.set i' o' x' ∈ ops → ¬((⟨i', o'⟩ : MemKey) = ⟨i, o⟩)) :
    ((⟨i, o⟩ : MemKey) ∈ lruKeys (c.set i o x).lru →
        ((c.set i o x).get i o).1 = some x)
    ∧ (((runMemOps (c.set i o x) ops).get i o).1 = none ∨
        ((runMemOps (c.set i o x) ops).get i o).1 = some x) := by
  constructor
  · intro hmem
    rw [get_fst]
    rcases find_set_lemma c i o x ⟨i, o⟩ hnd with hnone | heq
    · have hsome := lruFind_isSome_of_mem _ _ hmem
      rw [hnone] at hsome
      cases hsome
    · rw [heq, if_pos rfl]
  · rw [get_fst]
    apply runOps_find_aux ⟨i, o⟩ x ops (c.set i o x)
      (nodup_keys_set c i o x hnd) ?_ hops
    rcases find_set_lemma c i o x ⟨i, o⟩ hnd with hn | he
    · left; exact hn
    · right; rw [he, if_pos rfl]

def smallOutput : ImageOutput :=
  { buf := [1, 2, 3], img_type := .png, width := 1, height := 1,
    orig_size := 3, orig_type := .png, orig_width := 1, orig_height := 1 }

/-- Witness for `mem_cache_last_write_wins` at a concrete cache and op list. -/
theorem mem_cache_last_write_wins_witness :
    ((⟨"a", procOpts0⟩ : MemKey) ∈
        lruKeys ((MemoryCache.new 10).set "a" procOpts0 smallOutput).lru →
      (((MemoryCache.new 10).set "a" procOpts0 smallOutput).get "a" procOpts0).1
        = some smallOutput)
    ∧ ((((runMemOps ((MemoryCache.new 10).set "a" procOpts0 smallOutput)
          [MemOp.set "b" procOpts0 oversizedOutput]).get "a" procOpts0).1 = none) ∨
        (((runMemOps ((MemoryCache.new 10).set "a" procOpts0 smallOutput)
          [MemOp.set "b" procOpts0 oversizedOutput]).get "a" procOpts0).1
            = some smallOutput)) :=
  mem_cache_last_write_wins (MemoryCache.new 10) "a" procOpts0 smallOutput
    [MemOp.set "b" procOpts0 oversizedOutput]
    (by simp [MemoryCache.new, lruKeys])
    (by
      intro i' o' x' hm
      simp only [List.mem_singleton] at hm
      injection hm with h1 h2 h3
      subst h1; subst h2
      decide)

/-! ## DiskCache file format (src/cache/disk.rs)

`set_inner` (disk.rs lines 217-232) serializes a 4-byte big-endian metadata
length, the serde_json encoding of `ImageOutput` (with `buf` skipped), and the
raw image bytes.  `get_inner` (disk.rs lines 191-215) parses that layout.
serde_json's serialization of `ImageOutput` is modelled concretely: a JSON
object with the fields in declaration order, enums rendered as lowercase
strings, numbers in decimal; the matching deserializer accepts exactly this
grammar (a model of the external serde_json crate at the boundary). -/

def toBE4 (n : Nat) : List Nat :=
  [n / 16777216 % 256, n / 65536 % 256, n / 256 % 256, n % 256]

def fromBE4 (l : List Nat) : Nat :=
  match l with
  | [a, b, c, d] => ((a * 256 + b) * 256 + c) * 256 + d
  | _ => 0

theorem fromBE4_toBE4 (n : Nat) (h : n < 4294967296) : fromBE4 (toBE4 n) = n := by
  simp only [toBE4, fromBE4]
  omega

theorem toBE4_length (n : Nat) : (toBE4 n).length = 4 := rfl

def strBytes (s : String) : List Nat := s.data.map Char.toNat

/-- Little-endian decimal digits computed with structural fuel (so that the
kernel can evaluate it); equal to `Nat.digits 10` by `decDigitsRev_eq`. -/
def decDigitsRev : Nat → Nat → List Nat
  | _, 0 => []
  | 0, _ + 1 => []
  | fuel + 1, n + 1 => (n + 1) % 10 :: decDigitsRev fuel ((n + 1) / 10)

/-- Decimal rendering of a `Nat`, as serde_json prints it. -/
def encodeNat (n : Nat) : List Nat :=
  if n = 0 then [48] else ((decDigitsRev n n).reverse).map (fun d => d + 48)

def imageTypeStr : ImageType → String
  | .avif => "avif"
  | .jpeg => "jpeg"
  | .png => "png"
  | .tiff => "tiff"
  | .webp => "webp"

def inputImageTypeStr : InputImageType → String
  | .avif => "avif"
  | .jpeg => "jpeg"
  | .png => "png"
  | .tiff => "tiff"
  | .webp => "webp"

/-- serde_json serialization of `ImageOutput` with the `buf` field skipped
(image.rs lines 144-155: field order img_type, width, height, orig_size,
orig_type, orig_width, orig_height). -/
def encodeMeta (o : ImageOutput) : List Nat :=
  strBytes "\x7b\"img_type\":\"" ++ strBytes (imageTypeStr o.img_type) ++
  strBytes "\",\"width\":" ++ encodeNat o.width ++
  strBytes ",\"height\":" ++ encodeNat o.height ++
  strBytes ",\"orig_size\":" ++ encodeNat o.orig_size ++
  strBytes ",\"orig_type\":\"" ++ strBytes (inputImageTypeStr o.orig_type) ++
  strBytes "\",\"orig_width\":" ++ encodeNat o.orig_width ++
  strBytes ",\"orig_height\":" ++ encodeNat o.orig_height ++
  strBytes "\x7d"

def stripLit (p l : List Nat) : Option (List Nat) :=
  if l.take p.length = p then some (l.drop p.length) else none

def isDigitByte (b : Nat) : Bool := decide (48 ≤ b) && decide (b ≤ 57)

def digitsVal (ds : List Nat) : Nat := ds.foldl (fun acc d => acc * 10 + (d - 48)) 0

def parseNatBytes (l : List Nat) : Option (Nat × List Nat) :=
  match l.takeWhile isDigitByte with
  | [] => none
  | ds => some (digitsVal ds, l.dropWhile isDigitByte)

def parseImageType (l : List Nat) : Option (ImageType × List Nat) :=
  match stripLit (strBytes "avif") l with
  | some r => some (.avif, r)
  | none =>
  match stripLit (strBytes "jpeg") l with
  | some r => some (.jpeg, r)
  | none =>
  match stripLit (strBytes "png") l with
  | some r => some (.png, r)
  | none =>
  match stripLit (strBytes "tiff") l with
  | some r => some (.tiff, r)
  | none =>
  match stripLit (strBytes "webp") l with
  | some r => some (.webp, r)
  | none => none

def parseInputImageType (l : List Nat) : Option (InputImageType × List Nat) :=
  match stripLit (strBytes "avif") l with
  | some r => some (.avif, r)
  | none =>
  match stripLit (strBytes "jpeg") l with
  | some r => some (.jpeg, r)
  | none =>
  match stripLit (strBytes "png") l with
  | some r => some (.png, r)
  | none =>
  match stripLit (strBytes "tiff") l with
  | some r => some (.tiff, r)
  | none =>
  match stripLit (strBytes "webp") l with
  | some r => some (.webp, r)
  | none => none

/-- Deserializer for the metadata object (model of
`serde_json::from_slice::<ImageOutput>`; the skipped `buf` field defaults to
empty, disk.rs line 211). -/
def parseMeta (l : List Nat) : Option (ImageOutput × List Nat) := do
  let l ← stripLit (strBytes "\x7b\"img_type\":\"") l
  let (it, l) ← parseImageType l
  let l ← stripLit (strBytes "\",\"width\":") l
  let (w, l) ← parseNatBytes l
  let l ← stripLit (strBytes ",\"height\":") l
  let (hgt, l) ← parseNatBytes l
  let l ← stripLit (strBytes ",\"orig_size\":") l
  let (os, l) ← parseNatBytes l
  let l ← stripLit (strBytes ",\"orig_type\":\"") l
  let (ot, l) ← parseInputImageType l
  let l ← stripLit (strBytes "\",\"orig_width\":") l
  let (ow, l) ← parseNatBytes l
  let l ← stripLit (strBytes ",\"orig_height\":") l
  let (oh, l) ← parseNatBytes l
  let rest ← stripLit (strBytes "\x7d") l
  pure ({ buf := [], img_type := it, width := w, height := hgt, orig_size := os,
          orig_type := ot, orig_width := ow, orig_height := oh }, rest)

/-- `serde_json::from_slice` requires the whole slice to be one JSON value. -/
def parseMetaFull (l : List Nat) : Option ImageOutput :=
  match parseMeta l with
  | some (o, []) => some o
  | _ => none

/-- The cache-file bytes produced by `DiskCache::set_inner`
(disk.rs lines 217-232); `none` models the `u32::try_from` failure when the
metadata is longer than `u32::MAX` (line 222). -/
def set_inner_bytes (output : ImageOutput) : Option (List Nat) :=
  if (encodeMeta output).length < 4294967296 then
    some (toBE4 (encodeMeta output).length ++ encodeMeta output ++ output.buf)
  else none

/-- `DiskCache::get_inner` (disk.rs lines 191-215) on the file contents;
the argument is `none` when the file does not exist (`ErrorKind::NotFound`). -/
def get_inner_bytes : Option (List Nat) → Except String (Option ImageOutput)
  | none => .ok none
  | some data =>
    if data.length < 4 then .error "invalid cached file: size is too small"
    else if data.length < fromBE4 (data.take 4) + 4 then
      .error "invalid cached file: length is incorrect"
    else
      match parseMetaFull ((data.drop 4).take (fromBE4 (data.take 4))) with
      | none => .error "invalid metadata json"
      | some o => .ok (some { o with buf := data.drop (4 + fromBE4 (data.take 4)) })

/-! ### Round-trip lemmas for the metadata encoding -/

theorem stripLit_append (p r : List Nat) : stripLit p (p ++ r) = some r := by
  simp [stripLit, List.take_left, List.drop_left]

theorem stripLit_append_ne (p q r : List Nat) (hlen : p.length ≤ q.length)
    (hne : q.take p.length ≠ p) : stripLit p (q ++ r) = none := by
  have htake : (q ++ r).take p.length = q.take p.length :=
    List.take_append_of_le_length hlen
  simp [stripLit, htake, hne]

theorem stripLit_cons_ne (a : Nat) (p' : List Nat) (b : Nat) (l : List Nat)
    (hne : ¬b = a) : stripLit (a :: p') (b :: l) = none := by
  simp [stripLit, List.take_succ_cons, hne]

theorem stripLit_strBytes_ne (s t : String) (r : List Nat)
    (h : ∃ a p' b l', strBytes s = a :: p' ∧ strBytes t = b :: l' ∧ ¬b = a) :
    stripLit (strBytes s) (strBytes t ++ r) = none := by
  obtain ⟨a, p', b, l', hs, ht, hne⟩ := h
  rw [hs, ht, List.cons_append]
  exact stripLit_cons_ne a p' b (l' ++ r) hne

theorem parseImageType_encode (t : ImageType) (r : List Nat) :
    parseImageType (strBytes (imageTypeStr t) ++ r) = some (t, r) := by
  cases t <;>
    simp [parseImageType, imageTypeStr, stripLit_append,
      stripLit_strBytes_ne "avif" "jpeg" r ⟨_, _, _, _, rfl, rfl, by decide⟩,
      stripLit_strBytes_ne "avif" "png" r ⟨_, _, _, _, rfl, rfl, by decide⟩,
      stripLit_strBytes_ne "jpeg" "png" r ⟨_, _, _, _, rfl, rfl, by decide⟩,
      stripLit_strBytes_ne "avif" "tiff" r ⟨_, _, _, _, rfl, rfl, by decide⟩,
      stripLit_strBytes_ne "jpeg" "tiff" r ⟨_, _, _, _, rfl, rfl, by decide⟩,
      stripLit_strBytes_ne "png" "tiff" r ⟨_, _, _, _, rfl, rfl, by decide⟩,
      stripLit_strBytes_ne "avif" "webp" r ⟨_, _, _, _, rfl, rfl, by decide⟩,
      stripLit_strBytes_ne "jpeg" "webp" r ⟨_, _, _, _, rfl, rfl, by decide⟩,
      stripLit_strBytes_ne "png" "webp" r ⟨_, _, _, _, rfl, rfl, by decide⟩,
      stripLit_strBytes_ne "tiff" "webp" r ⟨_, _, _, _, rfl, rfl, by decide⟩]

theorem parseInputImageType_encode (t : InputImageType) (r : List Nat) :
    parseInputImageType (strBytes (inputImageTypeStr t) ++ r) = some (t, r) := by
  cases t <;>
    simp [parseInputImageType, inputImageTypeStr, stripLit_append,
      stripLit_strBytes_ne "avif" "jpeg" r ⟨_, _, _, _, rfl, rfl, by decide⟩,
      stripLit_strBytes_ne "avif" "png" r ⟨_, _, _, _, rfl, rfl, by decide⟩,
      stripLit_strBytes_ne "jpeg" "png" r ⟨_, _, _, _, rfl, rfl, by decide⟩,
      stripLit_strBytes_ne "avif" "tiff" r ⟨_, _, _, _, rfl, rfl, by decide⟩,
      stripLit_strBytes_ne "jpeg" "tiff" r ⟨_, _, _, _, rfl, rfl, by decide⟩,
      stripLit_strBytes_ne "png" "tiff" r ⟨_, _, _, _, rfl, rfl, by decide⟩,
      stripLit_strBytes_ne "avif" "webp" r ⟨_, _, _, _, rfl, rfl, by decide⟩,
      stripLit_strBytes_ne "jpeg" "webp" r ⟨_, _, _, _, rfl, rfl, by decide⟩,
      stripLit_strBytes_ne "png" "webp" r ⟨_, _, _, _, rfl, rfl, by decide⟩,
      stripLit_strBytes_ne "tiff" "webp" r ⟨_, _, _, _, rfl, rfl, by decide⟩]

theorem takeWhile_digits_append (ds r : List Nat)
    (hds : ∀ b ∈ ds, isDigitByte b = true)
    (hr : ∀ b, r.head? = some b → isDigitByte b = false) :
    (ds ++ r).takeWhile isDigitByte = ds ∧ (ds ++ r).dropWhile isDigitByte = r := by
  induction ds with
  | nil =>
    simp only [List.nil_append]
    cases r with
    | nil => exact ⟨rfl, rfl⟩
    | cons b r' =>
      have hb := hr b rfl
      simp [List.takeWhile_cons, List.dropWhile_cons, hb]
  | cons d ds' ih =>
    have hd := hds d (List.mem_cons_self _ _)
    have ih' := ih (fun b hb => hds b (List.mem_cons_of_mem _ hb))
    simp [List.takeWhile_cons, List.dropWhile_cons, hd, ih'.1, ih'.2]

theorem digitsVal_rev (ds : List Nat) (acc : Nat) :
    ((ds.reverse).map (fun d => d + 48)).foldl (fun a d => a * 10 + (d - 48)) acc
      = acc * 10 ^ ds.length + Nat.ofDigits 10 ds := by
  induction ds generalizing acc with
  | nil => simp [Nat.ofDigits_nil]
  | cons d ds' ih =>
    simp only [List.reverse_cons, List.map_append, List.foldl_append, ih,
      Nat.ofDigits_cons, List.length_cons, List.map_cons, List.map_nil,
      List.foldl_cons, List.foldl_nil, pow_succ]
    have : d + 48 - 48 = d := by omega
    rw [this]
    ring

theorem decDigitsRev_eq (fuel : Nat) : ∀ n : Nat, n ≤ fuel →
    decDigitsRev fuel n = Nat.digits 10 n := by
  induction fuel with
  | zero =>
    intro n hn
    obtain rfl : n = 0 := Nat.le_zero.mp hn
    simp [decDigitsRev]
  | succ fuel ih =>
    intro n hn
    cases n with
    | zero => simp [decDigitsRev]
    | succ m =>
      rw [show decDigitsRev (fuel + 1) (m + 1)
          = (m + 1) % 10 :: decDigitsRev fuel ((m + 1) / 10) from rfl]
      rw [ih ((m + 1) / 10) (by
        have := Nat.div_lt_self (Nat.succ_pos m) (by norm_num : 1 < 10)
        omega)]
      exact (Nat.digits_def' (by norm_num : 1 < 10) (Nat.succ_pos m)).symm

theorem encodeNat_eq_digits (n : Nat) :
    encodeNat n
      = if n = 0 then [48] else ((Nat.digits 10 n).reverse).map (fun d => d + 48) := by
  unfold encodeNat
  rw [decDigitsRev_eq n n le_rfl]

theorem encodeNat_digits (n : Nat) : ∀ b ∈ encodeNat n, isDigitByte b = true := by
  intro b hb
  rw [encodeNat_eq_digits] at hb
  by_cases h0 : n = 0
  · simp [h0] at hb
    subst hb
    decide
  · simp [h0] at hb
    obtain ⟨d, hd, rfl⟩ := hb
    have hlt : d < 10 := Nat.digits_lt_base (by norm_num) hd
    simp [isDigitByte]
    omega

theorem encodeNat_ne_nil (n : Nat) : encodeNat n ≠ [] := by
  rw [encodeNat_eq_digits]
  by_cases h0 : n = 0
  · simp [h0]
  · simp [h0, Nat.digits_ne_nil_iff_ne_zero]

theorem digitsVal_encodeNat (n : Nat) : digitsVal (encodeNat n) = n := by
  rw [encodeNat_eq_digits]
  unfold digitsVal
  by_cases h0 : n = 0
  · simp [h0]
  · simp only [h0, if_false]
    rw [digitsVal_rev (Nat.digits 10 n) 0]
    simp [Nat.ofDigits_digits]

theorem parseNat_encode (n : Nat) (r : List Nat)
    (hr : ∀ b, r.head? = some b → isDigitByte b = false) :
    parseNatBytes (encodeNat n ++ r) = some (n, r) := by
  obtain ⟨htake, hdrop⟩ := takeWhile_digits_append (encodeNat n) r (encodeNat_digits n) hr
  obtain ⟨d, ds', hds⟩ := List.exists_cons_of_ne_nil (encodeNat_ne_nil n)
  unfold parseNatBytes
  rw [htake, hdrop, hds]
  have : digitsVal (d :: ds') = n := by rw [← hds]; exact digitsVal_encodeNat n
  simp [this]

theorem parseNat_encode_strBytes (n : Nat) (s : String) (r : List Nat)
    (hs : ∃ b t, strBytes s = b :: t ∧ isDigitByte b = false) :
    parseNatBytes (encodeNat n ++ (strBytes s ++ r)) = some (n, strBytes s ++ r) := by
  obtain ⟨b, t, hb, hd⟩ := hs
  apply parseNat_encode
  intro c hc
  rw [hb, List.cons_append] at hc
  have : b = c := by
    have : (b :: (t ++ r)).head? = some b := rfl
    rw [this] at hc
    injection hc
  rw [← this]
  exact hd

theorem parseMeta_encodeMeta (o : ImageOutput) (rest : List Nat) :
    parseMeta (encodeMeta o ++ rest) = some ({ o with buf := [] }, rest) := by
  rw [show encodeMeta o ++ rest =
      strBytes "\x7b\"img_type\":\"" ++ (strBytes (imageTypeStr o.img_type) ++
      (strBytes "\",\"width\":" ++ (encodeNat o.width ++
      (strBytes ",\"height\":" ++ (encodeNat o.height ++
      (strBytes ",\"orig_size\":" ++ (encodeNat o.orig_size ++
      (strBytes ",\"orig_type\":\"" ++ (strBytes (inputImageTypeStr o.orig_type) ++
      (strBytes "\",\"orig_width\":" ++ (encodeNat o.orig_width ++
      (strBytes ",\"orig_height\":" ++ (encodeNat o.orig_height ++
      (strBytes "\x7d" ++ rest))))))))))))))
    from by simp [encodeMeta, List.append_assoc]]
  simp only [parseMeta]
  rw [stripLit_append]
  simp only [Option.pure_def, Option.bind_eq_bind, Option.some_bind]
  rw [parseImageType_encode]
  simp only [Option.some_bind]
  rw [stripLit_append]
  simp only [Option.some_bind]
  rw [parseNat_encode_strBytes o.width ",\"height\":" _ ⟨_, _, rfl, by decide⟩]
  simp only [Option.some_bind]
  rw [stripLit_append]
  simp only [Option.some_bind]
  rw [parseNat_encode_strBytes o.height ",\"orig_size\":" _ ⟨_, _, rfl, by decide⟩]
  simp only [Option.some_bind]
  rw [stripLit_append]
  simp only [Option.some_bind]
  rw [parseNat_encode_strBytes o.orig_size ",\"orig_type\":\"" _ ⟨_, _, rfl, by decide⟩]
  simp only [Option.some_bind]
  rw [stripLit_append]
  simp only [Option.some_bind]
  rw [parseInputImageType_encode]
  simp only [Option.some_bind]
  rw [stripLit_append]
  simp only [Option.some_bind]
  rw [parseNat_encode_strBytes o.orig_width ",\"orig_height\":" _ ⟨_, _, rfl, by decide⟩]
  simp only [Option.some_bind]
  rw [stripLit_append]
  simp only [Option.some_bind]
  rw [parseNat_encode_strBytes o.orig_height "\x7d" _ ⟨_, _, rfl, by decide⟩]
  simp only [Option.some_bind]
  rw [stripLit_append]
  simp only [Option.some_bind]

theorem digits_length_le (m k : Nat) (h : m < 10 ^ k) :
    (Nat.digits 10 m).length ≤ k := by
  by_cases h0 : m = 0
  · simp [h0]
  · by_contra hlt
    push_neg at hlt
    have h1 : 10 ^ (k + 1) ≤ 10 ^ (Nat.digits 10 m).length :=
      Nat.pow_le_pow_right (by norm_num) hlt
    have h2 : 10 ^ (Nat.digits 10 m).length ≤ 10 * m :=
      Nat.base_pow_length_digits_le 10 m (by norm_num) h0
    have h3 : 10 ^ (k + 1) = 10 ^ k * 10 := pow_succ 10 k
    omega

theorem encodeNat_length_le (n k : Nat) (hk : 1 ≤ k) (h : n < 10 ^ k) :
    (encodeNat n).length ≤ k := by
  rw [encodeNat_eq_digits]
  by_cases h0 : n = 0
  · simp [h0]; omega
  · simp [h0]
    exact digits_length_le n k h

/-- Field bounds imposed by the source types (`u32` for the dimensions,
`u64` for `orig_size`, image.rs lines 148-154). -/
def ImageOutput.wf (o : ImageOutput) : Prop :=
  o.width < 4294967296 ∧ o.height < 4294967296 ∧
    o.orig_size < 18446744073709551616 ∧
    o.orig_width < 4294967296 ∧ o.orig_height < 4294967296

theorem encodeMeta_length_lt (o : ImageOutput) (hwf : o.wf) :
    (encodeMeta o).length < 4294967296 := by
  obtain ⟨h1, h2, h3, h4, h5⟩ := hwf
  have p10 : (10:Nat) ^ 10 = 10000000000 := by norm_num
  have p20 : (10:Nat) ^ 20 = 100000000000000000000 := by norm_num
  have e1 : (encodeNat o.width).length ≤ 10 :=
    encodeNat_length_le _ 10 (by norm_num) (by omega)
  have e2 : (encodeNat o.height).length ≤ 10 :=
    encodeNat_length_le _ 10 (by norm_num) (by omega)
  have e3 : (encodeNat o.orig_size).length ≤ 20 :=
    encodeNat_length_le _ 20 (by norm_num) (by omega)
  have e4 : (encodeNat o.orig_width).length ≤ 10 :=
    encodeNat_length_le _ 10 (by norm_num) (by omega)
  have e5 : (encodeNat o.orig_height).length ≤ 10 :=
    encodeNat_length_le _ 10 (by norm_num) (by omega)
  have n1 : (strBytes (imageTypeStr o.img_type)).length ≤ 4 := by
    cases ht : o.img_type <;> decide
  have n2 : (strBytes (inputImageTypeStr o.orig_type)).length ≤ 4 := by
    cases ht : o.orig_type <;> decide
  have t1 : (strBytes "\x7b\"img_type\":\"").length ≤ 20 := by decide
  have t2 : (strBytes "\",\"width\":").length ≤ 20 := by decide
  have t3 : (strBytes ",\"height\":").length ≤ 20 := by decide
  have t4 : (strBytes ",\"orig_size\":").length ≤ 20 := by decide
  have t5 : (strBytes ",\"orig_type\":\"").length ≤ 20 := by decide
  have t6 : (strBytes "\",\"orig_width\":").length ≤ 20 := by decide
  have t7 : (strBytes ",\"orig_height\":").length ≤ 20 := by decide
  have t8 : (strBytes "\x7d").length ≤ 20 := by decide
  simp only [encodeMeta, List.length_append]
  omega

/-- C4: the disk-cache round-trip.  `set_inner` produces exactly the layout
"4-byte big-endian metadata length, metadata JSON, raw image bytes", and
`get_inner` on that file returns an output equal to the one stored. -/
theorem disk_cache_roundtrip (o : ImageOutput) (hwf : o.wf)
    (hbuf : o.buf.length ≤ 4294967295) :
    ∃ file, set_inner_bytes o = some file ∧
      file = toBE4 (encodeMeta o).length ++ (encodeMeta o ++ o.buf) ∧
      get_inner_bytes (some file) = .ok (some o) := by
  have hlen := encodeMeta_length_lt o hwf
  refine ⟨toBE4 (encodeMeta o).length ++ (encodeMeta o ++ o.buf),
    by simp [set_inner_bytes, hlen, List.append_assoc], rfl, ?_⟩
  have htake4 : (toBE4 (encodeMeta o).length ++ (encodeMeta o ++ o.buf)).take 4
      = toBE4 (encodeMeta o).length := by
    rw [show (4:Nat) = (toBE4 (encodeMeta o).length).length from rfl]
    exact List.take_left _ _
  have hfrom : fromBE4 ((toBE4 (encodeMeta o).length ++ (encodeMeta o ++ o.buf)).take 4)
      = (encodeMeta o).length := by
    rw [htake4]; exact fromBE4_toBE4 _ hlen
  have hlendata : (toBE4 (encodeMeta o).length ++ (encodeMeta o ++ o.buf)).length
      = 4 + (encodeMeta o).length + o.buf.length := by
    simp [toBE4]; omega
  have hdrop4 : (toBE4 (encodeMeta o).length ++ (encodeMeta o ++ o.buf)).drop 4
      = encodeMeta o ++ o.buf := by
    rw [show (4:Nat) = (toBE4 (encodeMeta o).length).length from rfl]
    exact List.drop_left _ _
  have htakeL : (encodeMeta o ++ o.buf).take (encodeMeta o).length = encodeMeta o :=
    List.take_left _ _
  have hparse : parseMetaFull (encodeMeta o) = some { o with buf := [] } := by
    unfold parseMetaFull
    rw [show encodeMeta o = encodeMeta o ++ [] from (List.append_nil _).symm,
      parseMeta_encodeMeta]
  have hdropL : (toBE4 (encodeMeta o).length ++ (encodeMeta o ++ o.buf)).drop
      (4 + (encodeMeta o).length) = o.buf := by
    rw [show toBE4 (encodeMeta o).length ++ (encodeMeta o ++ o.buf)
        = (toBE4 (encodeMeta o).length ++ encodeMeta o) ++ o.buf from by
      simp [List.append_assoc]]
    rw [show 4 + (encodeMeta o).length
        = (toBE4 (encodeMeta o).length ++ encodeMeta o).length from by
      simp [toBE4]; omega]
    exact List.drop_left _ _
  simp only [get_inner_bytes, hfrom, hlendata]
  rw [if_neg (by omega : ¬(4 + (encodeMeta o).length + o.buf.length < 4))]
  rw [if_neg (by omega :
    ¬(4 + (encodeMeta o).length + o.buf.length < (encodeMeta o).length + 4))]
  rw [hdrop4, htakeL]
  simp only [hparse, hdropL]

/-- Witness for `disk_cache_roundtrip` at a concrete output. -/
theorem disk_cache_roundtrip_witness :
    ∃ file, set_inner_bytes smallOutput = some file ∧
      file = toBE4 (encodeMeta smallOutput).length ++
        (encodeMeta smallOutput ++ smallOutput.buf) ∧
      get_inner_bytes (some file) = .ok (some smallOutput) :=
  disk_cache_roundtrip smallOutput
    ⟨by decide, by decide, by decide, by decide, by decide⟩ (by decide)

/-- C9 counterexample: the file `[0,0,0,0]` passes both length checks of
`get_inner` (length 4 and declared metadata length 0) yet `get_inner` returns
an error, because the empty metadata slice is not valid JSON — so "error
exactly when shorter than 4 bytes or total length below L+4" is false. -/
theorem disk_get_malformed_beyond_lengths :
    get_inner_bytes (some [0, 0, 0, 0]) = .error "invalid metadata json"
    ∧ ¬(([0, 0, 0, 0] : List Nat).length < 4)
    ∧ ¬(([0, 0, 0, 0] : List Nat).length
        < fromBE4 (([0, 0, 0, 0] : List Nat).take 4) + 4) := by
  refine ⟨rfl, by decide, by decide⟩

/-- C9 (amended): `get_inner` returns absent (not an error) when the file is
missing, and returns an error exactly when the file exists and is malformed:
shorter than 4 bytes, or with declared metadata length L and total length
below L+4, or with an L-byte metadata slice that does not deserialize. -/
theorem disk_get_error_characterization (data : List Nat) :
    get_inner_bytes none = .ok none
    ∧ ((∃ e, get_inner_bytes (some data) = .error e) ↔
        (data.length < 4 ∨ data.length < fromBE4 (data.take 4) + 4 ∨
          parseMetaFull ((data.drop 4).take (fromBE4 (data.take 4))) = none)) := by
  refine ⟨rfl, ?_⟩
  simp only [get_inner_bytes]
  by_cases h1 : data.length < 4
  · simp [h1]
  · simp only [h1, if_false]
    by_cases h2 : data.length < fromBE4 (data.take 4) + 4
    · simp [h2]
    · simp only [h2, if_false]
      cases hp : parseMetaFull ((data.drop 4).take (fromBE4 (data.take 4))) with
      | none => simp [h1, h2]
      | some v => simp [h1, h2]

/-! ## DiskCache file creation (src/cache/disk.rs lines 252-269)

A sequential model of the filesystem: a list of (path, contents) files plus a
set of existing directories; paths are component lists.  `openCreateNew`
models `OpenOptions::new().write(true).create_new(true).open(path)`: it fails
with `AlreadyExists` when the file exists, with `NotFound` when the parent
directory is missing, and otherwise creates the (empty) file. -/

abbrev FsPath := List String

structure FS where
  files : List (FsPath × List Nat)
  dirs : List FsPath
deriving DecidableEq, Repr

def FS.fileExists (fs : FS) (p : FsPath) : Bool :=
  fs.files.any (fun q => decide (q.1 = p))

def FS.readFile (fs : FS) (p : FsPath) : Option (List Nat) :=
  (fs.files.find? (fun q => decide (q.1 = p))).map Prod.snd

inductive FsErrorKind
| notFound
| alreadyExists
| other
deriving DecidableEq, Repr

def openCreateNew (fs : FS) (p : FsPath) : FS × Except FsErrorKind Unit :=
  if fs.fileExists p then (fs, .error .alreadyExists)
  else if p.dropLast ∈ fs.dirs then
    ({ fs with files := (p, []) :: fs.files }, .ok ())
  else (fs, .error .notFound)

/-- `std::fs::create_dir_all`: creates the directory and all its parents. -/
def FS.mkdirAll (fs : FS) (d : FsPath) : FS :=
  { fs with dirs := (List.range (d.length + 1)).map (fun n => d.take n) ++ fs.dirs }

/-- `DiskCache::create_file` (disk.rs lines 252-269): try create-new; on
`NotFound` create the parent directories and retry; any other error (in
particular `AlreadyExists`) is returned as-is. -/
def create_file (fs : FS) (p : FsPath) : FS × Except FsErrorKind Unit :=
  match openCreateNew fs p with
  | (fs1, .ok ()) => (fs1, .ok ())
  | (fs1, .error e) =>
    if e ≠ .notFound then (fs1, .error e)
    else if p.isEmpty then (fs1, .error e)
    else openCreateNew (fs1.mkdirAll p.dropLast) p

def FS.writeFile (fs : FS) (p : FsPath) (c : List Nat) : FS :=
  { fs with files := (p, c) :: fs.files.eraseP (fun q => decide (q.1 = p)) }

/-- `DiskCache::set_inner` acting on the filesystem (disk.rs lines 217-232):
serialize, `create_file`, write everything; the number of bytes written is
returned on success. -/
def set_inner_fs (fs : FS) (p : FsPath) (o : ImageOutput) :
    FS × Except FsErrorKind Nat :=
  match set_inner_bytes o with
  | none => (fs, .error .other)
  | some contents =>
    match create_file fs p with
    | (fs1, .error e) => (fs1, .error e)
    | (fs1, .ok ()) => (fs1.writeFile p contents, .ok contents.length)

theorem any_of_find?_eq_some {α : Type} (pred : α → Bool) (l : List α) (x : α)
    (h : l.find? pred = some x) : l.any pred = true := by
  induction l with
  | nil => cases h
  | cons a rest ih =>
    rw [List.find?_cons] at h
    cases ha : pred a with
    | true => simp [List.any_cons, ha]
    | false =>
      simp only [ha] at h
      simp only [List.any_cons, ha, Bool.false_or]
      exact ih h

theorem fileExists_of_readFile (fs : FS) (p : FsPath) (c : List Nat)
    (h : fs.readFile p = some c) : fs.fileExists p = true := by
  unfold FS.readFile at h
  unfold FS.fileExists
  cases hf : fs.files.find? (fun q => decide (q.1 = p)) with
  | none => rw [hf] at h; cases h
  | some x => exact any_of_find?_eq_some _ _ x hf

theorem readFile_writeFile (fs : FS) (p : FsPath) (c : List Nat) :
    (fs.writeFile p c).readFile p = some c := by
  simp [FS.writeFile, FS.readFile, List.find?_cons]

theorem mkdirAll_mem_dirs (fs : FS) (d : FsPath) : d ∈ (fs.mkdirAll d).dirs := by
  unfold FS.mkdirAll
  simp only [List.mem_append]
  left
  exact List.mem_map.mpr ⟨d.length, List.mem_range.mpr (by omega), List.take_length d⟩

/-- C8 (amended): `set_inner` opens the target with create-new semantics and
creates missing parent directories; when the file already exists it fails
cleanly, leaving the filesystem (and the existing entry) unmodified, and the
already-exists case surfaces as an ERROR from set (which the pipeline
ignores), not as a success. -/
theorem disk_set_create_new_semantics (fs : FS) (p : FsPath) (o : ImageOutput)
    (henc : (encodeMeta o).length < 4294967296) :
    (∀ c, fs.readFile p = some c →
        set_inner_fs fs p o = (fs, .error .alreadyExists))
    ∧ (fs.fileExists p = false → p ≠ [] →
        ∃ fs1, set_inner_fs fs p o =
            (fs1, .ok (toBE4 (encodeMeta o).length ++ (encodeMeta o ++ o.buf)).length)
          ∧ fs1.readFile p
              = some (toBE4 (encodeMeta o).length ++ (encodeMeta o ++ o.buf))) := by
  have hsb : set_inner_bytes o
      = some (toBE4 (encodeMeta o).length ++ (encodeMeta o ++ o.buf)) := by
    simp [set_inner_bytes, henc, List.append_assoc]
  constructor
  · intro c hc
    have hex := fileExists_of_readFile fs p c hc
    simp [set_inner_fs, hsb, create_file, openCreateNew, hex]
  · intro hex hne
    have hpe : p.isEmpty = false := by
      cases p with
      | nil => exact absurd rfl hne
      | cons a t => rfl
    by_cases hdir : p.dropLast ∈ fs.dirs
    · have hcf : create_file fs p
          = ({ fs with files := (p, []) :: fs.files }, .ok ()) := by
        simp [create_file, openCreateNew, hex, hdir]
      have hres : set_inner_fs fs p o
          = (({ fs with files := (p, []) :: fs.files }).writeFile p
              (toBE4 (encodeMeta o).length ++ (encodeMeta o ++ o.buf)),
             .ok (toBE4 (encodeMeta o).length ++ (encodeMeta o ++ o.buf)).length) := by
        simp [set_inner_fs, hsb, hcf]
      exact ⟨_, hres, readFile_writeFile _ _ _⟩
    · have hd2 : p.dropLast ∈ (fs.mkdirAll p.dropLast).dirs :=
        mkdirAll_mem_dirs fs p.dropLast
      have hex2 : (fs.mkdirAll p.dropLast).fileExists p = false := hex
      have hcf : create_file fs p
          = ({ fs.mkdirAll p.dropLast with
                files := (p, []) :: (fs.mkdirAll p.dropLast).files }, .ok ()) := by
        simp [create_file, openCreateNew, hex, hdir, hpe, hex2, hd2]
      have hres : set_inner_fs fs p o
          = (({ fs.mkdirAll p.dropLast with
                files := (p, []) :: (fs.mkdirAll p.dropLast).files }).writeFile p
              (toBE4 (encodeMeta o).length ++ (encodeMeta o ++ o.buf)),
             .ok (toBE4 (encodeMeta o).length ++ (encodeMeta o ++ o.buf)).length) := by
        simp [set_inner_fs, hsb, hcf]
      exact ⟨_, hres, readFile_writeFile _ _ _⟩

def fsWithEntry : FS :=
  { files := [(["a", "bc", "abc"], [9, 9, 9])], dirs := [[], ["a"], ["a", "bc"]] }

/-- C8 counterexample: with the target file already present, `set_inner`
returns an ERROR (`AlreadyExists`) — contradicting "that case counts as
idempotent success of set (not an error)" — while leaving the filesystem
untouched. -/
theorem disk_set_existing_is_error :
    (set_inner_fs fsWithEntry ["a", "bc", "abc"] smallOutput).2
      = .error .alreadyExists
    ∧ (set_inner_fs fsWithEntry ["a", "bc", "abc"] smallOutput).1 = fsWithEntry := by
  constructor
  · rfl
  · rfl

/-- Witness for `disk_set_create_new_semantics` on an initially empty
filesystem. -/
theorem disk_set_create_new_semantics_witness :
    (∀ c, (FS.mk [] [[]]).readFile ["a", "bc", "abc"] = some c →
        set_inner_fs (FS.mk [] [[]]) ["a", "bc", "abc"] smallOutput
          = (FS.mk [] [[]], .error .alreadyExists))
    ∧ ((FS.mk [] [[]]).fileExists ["a", "bc", "abc"] = false →
        ["a", "bc", "abc"] ≠ ([] : FsPath) →
        ∃ fs1, set_inner_fs (FS.mk [] [[]]) ["a", "bc", "abc"] smallOutput =
            (fs1, .ok (toBE4 (encodeMeta smallOutput).length ++
              (encodeMeta smallOutput ++ smallOutput.buf)).length)
          ∧ fs1.readFile ["a", "bc", "abc"]
              = some (toBE4 (encodeMeta smallOutput).length ++
                  (encodeMeta smallOutput ++ smallOutput.buf))) :=
  disk_set_create_new_semantics (FS.mk [] [[]]) ["a", "bc", "abc"] smallOutput
    (by decide)

/-! ## Verifier (src/signature.rs)

serde_urlencoded / form_urlencoded are modelled concretely at the crate
boundary: parsing splits on '&' (skipping empty components), splits each
component at the first '=' (a component without '=' gets an empty value),
and percent-decodes '+' and '%XX' (invalid escape sequences pass through
literally, as form_urlencoded does).  Deserializing into a vector of string
pairs never fails, so `get_message`'s query-parsing error path is dead in the
model.  Re-encoding keeps alphanumerics and `*-._`, turns a space into '+',
and percent-encodes the rest in uppercase hex (single-byte characters).
Ed25519 verification (`PublicKey::verify`) is an external primitive and is a
parameter `kverify` of the model. -/

def hexVal (c : Char) : Option Nat :=
  if '0' ≤ c ∧ c ≤ '9' then some (c.toNat - 48)
  else if 'a' ≤ c ∧ c ≤ 'f' then some (c.toNat - 87)
  else if 'A' ≤ c ∧ c ≤ 'F' then some (c.toNat - 55)
  else none

def percentDecode : List Char → List Char
  | [] => []
  | '%' :: a :: b :: rest =>
    match hexVal a, hexVal b with
    | some x, some y => Char.ofNat (16 * x + y) :: percentDecode rest
    | _, _ => '%' :: percentDecode (a :: b :: rest)
  | '+' :: rest => ' ' :: percentDecode rest
  | '%' :: rest => '%' :: percentDecode rest
  | c :: rest => c :: percentDecode rest

def splitEq : List Char → List Char × List Char
  | [] => ([], [])
  | c :: rest =>
    if c = '=' then ([], rest)
    else
      let r := splitEq rest
      (c :: r.1, r.2)

def parsePair (comp : String) : String × String :=
  (String.mk (percentDecode (splitEq comp.data).1),
   String.mk (percentDecode (splitEq comp.data).2))

def parseQuery (raw : String) : List (String × String) :=
  ((raw.splitOn "&").filter (fun comp => comp ≠ "")).map parsePair

def isUnreservedChar (c : Char) : Bool :=
  c.isAlphanum || c = '*' || c = '-' || c = '.' || c = '_'

def hexDigitChar (n : Nat) : Char :=
  if n < 10 then Char.ofNat (48 + n) else Char.ofNat (55 + n)

def percentEncodeChar (c : Char) : List Char :=
  if c = ' ' then ['+']
  else if isUnreservedChar c then [c]
  else ['%', hexDigitChar (c.toNat / 16 % 16), hexDigitChar (c.toNat % 16)]

def percentEncode (l : List Char) : List Char := (l.map percentEncodeChar).flatten

def encodePair (p : String × String) : String :=
  String.mk (percentEncode p.1.data) ++ "=" ++ String.mk (percentEncode p.2.data)

def encodeQuery (l : List (String × String)) : String :=
  String.intercalate "&" (l.map encodePair)

/-- Lexicographic byte order on keys, as `String::cmp` in Rust. -/
def charListLe : List Char → List Char → Bool
  | [], _ => true
  | _ :: _, [] => false
  | a :: as, b :: bs => if a = b then charListLe as bs else decide (a < b)

def keyLe (x y : String × String) : Bool := charListLe x.1.data y.1.data

/-- Stable insertion used to model the stable `Vec::sort_by` on keys
(signature.rs line 48): an element is inserted before the first
strictly-greater key, after equal keys already placed. -/
def insertSorted (x : String × String) :
    List (String × String) → List (String × String)
  | [] => [x]
  | y :: ys => if keyLe x y then x :: y :: ys else y :: insertSorted x ys

def sortPairs (l : List (String × String)) : List (String × String) :=
  l.foldr insertSorted []

/-- `path.starts_with('/')` (signature.rs line 40). -/
def startsWithSlash (s : String) : Bool :=
  match s.data with
  | c :: _ => decide (c = '/')
  | [] => false

/-- `Verifier::get_message` (signature.rs lines 37-55): prepend '/' when the
path does not start with one; when a raw query is PRESENT, drop the pairs
keyed "s", stably sort by key, re-encode and append after '?'; when the raw
query is ABSENT nothing (in particular no '?') is appended. -/
def getMessage (path : String) (query : Option String) : String :=
  let base := (if startsWithSlash path then "" else "/") ++ path
  match query with
  | none => base
  | some raw =>
    base ++ "?" ++
      encodeQuery (sortPairs ((parseQuery raw).filter (fun p => p.1 ≠ "s")))

/-- `hex::decode_to_slice` into `[u8; Signature::BYTES]`: the input must be
exactly 128 hex characters (64 bytes). -/
def hexDecodePairs : List Char → Option (List Nat)
  | [] => some []
  | a :: b :: rest =>
    match hexVal a, hexVal b with
    | some x, some y =>
      match hexDecodePairs rest with
      | some bs => some ((16 * x + y) :: bs)
      | none => none
    | _, _ => none
  | _ :: [] => none

def parseSignature (hexsig : List Char) : Option (List Nat) :=
  if hexsig.length = 128 then hexDecodePairs hexsig else none

/-- `Verifier::verify` (signature.rs lines 23-35); `kverify` models
`ed25519_compact::PublicKey::verify` for a key of type `K`
(`true` = signature accepted). -/
def Verifier.verify {K : Type} (kverify : K → String → List Nat → Bool)
    (keys : List K) (path : String) (query : Option String)
    (hexsig : List Char) : Except String Bool :=
  match parseSignature hexsig with
  | none => .error "parsing signature"
  | some sig => .ok (keys.any (fun k => kverify k (getMessage path query) sig))

/-- `Handler::verify` (handler.rs lines 56-66): no verifier configured is a
no-op success; a configured verifier demands a signature. -/
def handlerVerify {K : Type} (kverify : K → String → List Nat → Bool)
    (verifier : Option (List K)) (path : String) (query : Option String)
    (sig : Option (List Char)) : Except String Bool :=
  match verifier with
  | none => .ok true
  | some keys =>
    match sig with
    | none => .error "signature must be provided"
    | some s => Verifier.verify kverify keys path query s

/-- C5 counterexample: for path "/a" with NO raw query, the canonical message
is "/a" with no trailing '?'.  A key that verifies signatures exactly over the
claim's canonical message "/a?" is accepted by the claim but rejected by
`Verifier::verify`, which returns `Ok(false)`. -/
theorem verifier_no_qmark_when_query_absent :
    getMessage "/a" none = "/a"
    ∧ getMessage "/a" none ≠ "/a?"
    ∧ Verifier.verify (fun (_ : Unit) msg (_ : List Nat) => decide (msg = "/a?"))
        [()] "/a" none (List.replicate 128 '0') = .ok false
    ∧ (fun (_ : Unit) msg (_ : List Nat) => decide (msg = "/a?")) () "/a?"
        (List.replicate 64 0) = true := by
  refine ⟨rfl, by decide, ?_, by decide⟩
  rfl

/-- C5 (amended): `Verifier::verify` succeeds iff some configured key verifies
the signature over the canonical message; the canonical message is the path
(with '/' prepended if missing) followed, WHEN THE RAW QUERY IS PRESENT, by
'?' and the query pairs with the "s" parameter removed, stably sorted by key
ascending and re-encoded (a present-but-empty filtered query still gets the
trailing '?'); when the raw query is absent, nothing — in particular no '?' —
is appended. -/
theorem verifier_accepts_iff_some_key {K : Type}
    (kverify : K → String → List Nat → Bool) (keys : List K) (path : String)
    (query : Option String) (hexsig : List Char) (sig : List Nat)
    (hsig : parseSignature hexsig = some sig) :
    (Verifier.verify kverify keys path query hexsig = .ok true ↔
      ∃ k ∈ keys, kverify k (getMessage path query) sig = true)
    ∧ (∀ raw, getMessage path (some raw)
        = ((if startsWithSlash path then "" else "/") ++ path) ++ "?" ++
          encodeQuery (sortPairs ((parseQuery raw).filter (fun p => p.1 ≠ "s"))))
    ∧ getMessage path none = (if startsWithSlash path then "" else "/") ++ path := by
  refine ⟨?_, fun raw => rfl, rfl⟩
  simp only [Verifier.verify, hsig]
  constructor
  · intro h
    have hval : (keys.any (fun k => kverify k (getMessage path query) sig)) = true := by
      injection h with h'
    exact List.any_eq_true.mp hval
  · intro h
    rw [List.any_eq_true.mpr h]

/-- Witness for `verifier_accepts_iff_some_key` at a concrete query. -/
theorem verifier_accepts_iff_some_key_witness :
    ((Verifier.verify (fun (_ : Unit) _ (_ : List Nat) => true) [()] "a"
        (some "b=2&a=1&s=x") (List.replicate 128 '0') = .ok true ↔
      ∃ k ∈ [()], (fun (_ : Unit) _ (_ : List Nat) => true) k
        (getMessage "a" (some "b=2&a=1&s=x")) (List.replicate 64 0) = true)
    ∧ (∀ raw, getMessage "a" (some raw)
        = ((if startsWithSlash "a" then "" else "/") ++ "a") ++ "?" ++
          encodeQuery (sortPairs ((parseQuery raw).filter (fun p => p.1 ≠ "s"))))
    ∧ getMessage "a" none = (if startsWithSlash "a" then "" else "/") ++ "a") :=
  verifier_accepts_iff_some_key (fun (_ : Unit) _ (_ : List Nat) => true) [()]
    "a" (some "b=2&a=1&s=x") (List.replicate 128 '0') (List.replicate 64 0)
    (by decide)

/-- C10: a Verifier constructed from an empty key list authenticates nothing —
for every path, query and well-formed hex signature, `verify` returns
`Ok(false)` — while an UNCONFIGURED verifier makes `Handler::verify` a no-op
success. -/
theorem verifier_empty_keys_rejects {K : Type}
    (kverify : K → String → List Nat → Bool) (path : String)
    (query : Option String) (hexsig : List Char)
    (hsig : (parseSignature hexsig).isSome = true) :
    Verifier.verify kverify ([] : List K) path query hexsig = .ok false
    ∧ handlerVerify kverify (none : Option (List K)) path query (some hexsig)
        = .ok true := by
  obtain ⟨sig, hs⟩ := Option.isSome_iff_exists.mp hsig
  refine ⟨?_, rfl⟩
  simp only [Verifier.verify, hs]
  rfl

/-- Witness for `verifier_empty_keys_rejects`. -/
theorem verifier_empty_keys_rejects_witness :
    Verifier.verify (fun (_ : Unit) _ (_ : List Nat) => true) ([] : List Unit)
      "/x" none (List.replicate 128 '0') = .ok false
    ∧ handlerVerify (fun (_ : Unit) _ (_ : List Nat) => true)
        (none : Option (List Unit)) "/x" none (some (List.replicate 128 '0'))
        = .ok true :=
  verifier_empty_keys_rejects (fun (_ : Unit) _ (_ : List Nat) => true) "/x"
    none (List.replicate 128 '0') (by decide)
